import Mathlib

/-!
Verification of the queen-bee and mutant-bee genetic algorithm script
`qbmb.py`.  The script evolves a fixed-size pool of integer genomes toward
a fixed target string.  The shallow embedding below translates the
script's constants and its evolutionary loop into executable Lean
definitions: genomes are lists of integers (the rows of the int64 tensor
`pool`), the per-genome fitness `1. / sum-of-squares` is represented
exactly over `WithTop ℚ` (the IEEE value `inf` produced by `1./0.`
becomes `⊤`; for the integer sums of squares arising here, float
comparisons and the `== inf` test agree exactly with the rational ones,
so the exact model is faithful), and each phase of the loop body is a
named function of the loop state and of the generation's random draws,
which are passed in explicitly as an oracle structure.
-/

set_option maxRecDepth 100000

namespace QBMB

/-- A genome: one row of the integer tensor `pool` (line 44). -/
abbrev Genome := List ℤ

/-- Line 16: the target string. -/
def GOAL : String := "Attention is all you need"

/-- Line 18. -/
def POP_SIZE : ℕ := 100

/-- Line 19.  The float literal `0.04` denotes the double nearest to
4/100; we carry the exact rational.  The only derived quantity,
`MUTATION_PROB * gene_length` with `gene_length = 25`, evaluates to
exactly `1.0` in double precision, which is also the exact rational
value, so the rational model agrees with the float computation. -/
def MUTATION_PROB : ℚ := 4 / 100

/-- Line 20.  `0.25` is exactly representable. -/
def STRONG_MUTATION_PROB : ℚ := 25 / 100

/-- Line 21. -/
def NUM_TOURNAMENT_PARTICIPANTS : ℕ := 25

/-- Line 25: `encode` maps each character to its code point. -/
def encode (s : String) : Genome := s.data.map (fun c => (c.toNat : ℤ))

/-- Line 33: `gene_length = len(GOAL)`. -/
def gene_length : ℕ := GOAL.length

/-- Line 34: `gene_midpoint = gene_length // 2`. -/
def gene_midpoint : ℕ := gene_length / 2

/-- Line 35: `target_gene = encode(GOAL)`. -/
def target_gene : Genome := encode GOAL

/-- Line 37: `num_code_mutate = MUTATION_PROB * gene_length`. -/
def num_code_mutate : ℚ := MUTATION_PROB * gene_length

/-- Line 38: `strong_num_code_mutate = STRONG_MUTATION_PROB * gene_length`. -/
def strong_num_code_mutate : ℚ := STRONG_MUTATION_PROB * gene_length

/-- Line 53, inner part: the per-genome sum of squared differences
`torch.square(pool - target_gene).sum(dim = -1)`.  The squares are
nonnegative integers, so we record the sum as a natural number. -/
def sqSum (g t : Genome) : ℕ := (List.zipWith (fun a b => ((a - b) ^ 2).toNat) g t).sum

/-- The fitness scalar.  The script computes `1. / s` in floating point,
where division of `1.` by `0` yields `inf` rather than raising; `⊤`
models that value. -/
abbrev Fitness := WithTop ℚ

/-- Line 53: `fitnesses = 1. / torch.square(pool - target_gene).sum(-1)`,
per genome. -/
def fitness (g t : Genome) : Fitness :=
  if sqSum g t = 0 then ⊤ else (((1 : ℚ) / (sqSum g t : ℚ) : ℚ) : Fitness)

theorem sqSum_nil_left (t : Genome) : sqSum [] t = 0 := rfl

theorem sqSum_cons (a b : ℤ) (g t : Genome) :
    sqSum (a :: g) (b :: t) = ((a - b) ^ 2).toNat + sqSum g t := rfl

theorem sqSum_eq_zero_iff (g t : Genome) (h : g.length = t.length) :
    sqSum g t = 0 ↔ g = t := by
  induction g generalizing t with
  | nil =>
    cases t with
    | nil => simp [sqSum]
    | cons b tb => simp at h
  | cons a ga ih =>
    cases t with
    | nil => simp at h
    | cons b tb =>
      simp only [List.length_cons, Nat.add_right_cancel_iff] at h
      rw [sqSum_cons]
      constructor
      · intro hz
        have h1 : ((a - b) ^ 2).toNat = 0 := by omega
        have h2 : sqSum ga tb = 0 := by omega
        have hab : a = b := by
          have hnn : (0 : ℤ) ≤ (a - b) ^ 2 := sq_nonneg _
          have : (a - b) ^ 2 ≤ 0 := by
            rcases Int.toNat_eq_zero.mp h1 with h'
            exact h'
          have : (a - b) ^ 2 = 0 := le_antisymm this hnn
          have := pow_eq_zero_iff (n := 2) (by norm_num) |>.mp this
          omega
        rw [hab, (ih tb h).mp h2]
      · intro he
        injection he with h1 h2
        subst h1
        subst h2
        simp [(ih _ h).mpr rfl]

theorem fitness_eq_top_iff (g t : Genome) : fitness g t = ⊤ ↔ sqSum g t = 0 := by
  by_cases hz : sqSum g t = 0
  · simp [fitness, hz]
  · simp [fitness, hz]

theorem fitness_lt_fitness_iff (g h : Genome) (t : Genome) :
    fitness g t < fitness h t ↔ sqSum h t < sqSum g t := by
  unfold fitness
  rcases Nat.eq_zero_or_pos (sqSum g t) with hg | hg <;>
    rcases Nat.eq_zero_or_pos (sqSum h t) with hh | hh
  · simp [hg, hh]
  · rw [if_pos hg, if_neg (by omega : ¬ sqSum h t = 0)]
    simp only [hg]
    constructor
    · intro hc
      exact absurd hc (not_lt_of_ge le_top)
    · omega
  · rw [if_neg (by omega : ¬ sqSum g t = 0), if_pos hh]
    simp only [hh]
    constructor
    · intro _
      omega
    · intro _
      exact WithTop.coe_lt_top _
  · rw [if_neg (by omega : ¬ sqSum g t = 0), if_neg (by omega : ¬ sqSum h t = 0)]
    rw [WithTop.coe_lt_coe,
      one_div_lt_one_div (show (0 : ℚ) < sqSum g t by exact_mod_cast hg)
        (show (0 : ℚ) < sqSum h t by exact_mod_cast hh)]
    exact Nat.cast_lt

theorem fitness_le_fitness_iff (g h : Genome) (t : Genome) :
    fitness g t ≤ fitness h t ↔ sqSum h t ≤ sqSum g t := by
  constructor
  · intro hle
    by_contra hc
    push_neg at hc
    exact absurd ((fitness_lt_fitness_iff h g t).mpr hc) (not_lt_of_ge hle)
  · intro hle
    by_contra hc
    push_neg at hc
    exact absurd ((fitness_lt_fitness_iff h g t).mp hc) (by omega)

/-- Line 99 and line 123: `clamp_(0, 255)` applied to one row. -/
def clampRow (g : Genome) : Genome := g.map (fun v => min (max v 0) 255)

/-- Lines 96 and 119 build a mutation mask as
`torch.randn(shape).argsort(dim = -1) < threshold`: the argsort of the
noise row is a uniformly random permutation `perm` of `0 .. L-1`, and
position `i` is selected iff its rank `perm[i]` is below the (float)
threshold.  The permutation is the random draw; the comparison is exact
in our rational model. -/
def maskOfPerm (thresh : ℚ) (perm : List ℕ) : List Bool :=
  perm.map (fun (r : ℕ) => decide ((r : ℚ) < thresh))

/-- Lines 97-98 and 120-121: `noise = torch.randint(0, 2, shape) * 2 - 1`
gives a ±1 row, and `torch.where(mask, row + noise, row)` applies it at
the selected positions. -/
def mutateRow (mask : List Bool) (noise : List ℤ) (g : Genome) : Genome :=
  List.zipWith (fun mn v => if mn.1 then v + mn.2 else v) (mask.zip noise) g

/-- Lines 96-99: strong mutation of one selected parent, including the
in-place clamp of line 99. -/
def strongMutateRow (perm : List ℕ) (noise : List ℤ) (g : Genome) : Genome :=
  clampRow (mutateRow (maskOfPerm strong_num_code_mutate perm) noise g)

/-- Lines 119-121: weak mutation of one next-generation row.  Note that
the script never clamps `mutated_pool` (line 123 clamps `pool` instead). -/
def weakMutateRow (perm : List ℕ) (noise : List ℤ) (g : Genome) : Genome :=
  mutateRow (maskOfPerm num_code_mutate perm) noise g

/-- Lines 103-115: single-point crossover of the queen with one strongly
mutated mate.  `rand_crossover_order` permutes the stacked pair
`(queen, mate)` per row: `sw = false` keeps the order `(queen, mate)`,
`sw = true` swaps it; the child is first-half of the first element ++
second-half of the second. -/
def crossoverChild (q m : Genome) (sw : Bool) : Genome :=
  match sw with
  | false => q.take gene_midpoint ++ m.drop gene_midpoint
  | true => m.take gene_midpoint ++ q.drop gene_midpoint

/-- Lines 88-92, for one reproductive slot: the tournament keeps the
participant with the largest fitness, i.e. the smallest sum of squares
(`topk(1, largest = True)`; tie-breaking among equal fitnesses is
unspecified in torch, the model keeps the first). Participants are
looked up in the aligned `(genome, sum-of-squares)` pool. -/
def tournamentWinner (ps : List (Genome × ℕ)) (ids : List ℕ) : Genome × ℕ :=
  match ids with
  | [] => ([], 0)
  | i :: rest =>
      rest.foldl
        (fun best j => if (ps.getD j ([], 0)).2 < best.2 then ps.getD j ([], 0) else best)
        (ps.getD i ([], 0))

/-- One generation's random draws, passed explicitly: the tournament
participant indices of line 88, the strong-mutation argsort permutations
and ±1 noise of lines 96-97, the per-child crossover order of line 109,
and the weak-mutation permutations and noise of lines 119-120. -/
structure StepRand where
  contenders : List (List ℕ)
  strongPerms : List (List ℕ)
  strongNoises : List (List ℤ)
  crossSwaps : List Bool
  weakPerms : List (List ℕ)
  weakNoises : List (List ℤ)
deriving DecidableEq

/-- The state carried from one loop iteration to the next: `pool`
(line 44 / 115-123), the optional queen with her cached fitness
(lines 46, 82-84; we cache the sum of squares `s`, the stored float
being `1/s` — an order-reversing bijection, see `fitness_lt_fitness_iff`),
and the generation counter (lines 42, 127). -/
structure LoopState where
  pool : List Genome
  queen : Option (Genome × ℕ)
  generation : ℕ
deriving DecidableEq

/-- Line 53: fitness evaluation pairs every pool row with its score.
Keeping the pair makes the index alignment of pool and fitnesses an
explicit, checkable property. -/
def fitPairs (pool : List Genome) : List (Genome × ℕ) :=
  pool.map (fun g => (g, sqSum g target_gene))

/-- Ordering used to model lines 55-56: sorting the pairs by ascending
sum of squares is exactly sorting by descending fitness
(`fitnesses.sort(descending = True)` followed by joint indexing). -/
def pairLE (a b : Genome × ℕ) : Prop := a.2 ≤ b.2

instance : DecidableRel pairLE := fun a b => Nat.decLe a.2 b.2

instance : IsTotal (Genome × ℕ) pairLE := ⟨fun a b => Nat.le_total a.2 b.2⟩

instance : IsTrans (Genome × ℕ) pairLE := ⟨fun _ _ _ h1 h2 => Nat.le_trans h1 h2⟩

/-- Lines 55-56: joint sort of pool and fitnesses, descending by
fitness.  torch's sort is an unspecified (possibly unstable) permutation
among ties; insertion sort realizes one admissible outcome. -/
def sortPairs (ps : List (Genome × ℕ)) : List (Genome × ℕ) :=
  List.insertionSort pairLE ps

/-- The sorted, fitness-aligned population of lines 53-56. -/
def sortedPool (st : LoopState) : List (Genome × ℕ) :=
  sortPairs (fitPairs st.pool)

/-- Line 69: `(fitnesses == float('inf')).any()` — a fitness is `inf`
iff its sum of squares is zero. -/
def breakCond (st : LoopState) : Bool :=
  (sortedPool st).any (fun p => p.2 == 0)

/-- Line 75: `queen is not None and queen_fitness < fitnesses[0]`.
In fitness terms `1/qf < 1/h` iff `h < qf` on the sums of squares. -/
def demotes (st : LoopState) : Bool :=
  match st.queen, (sortedPool st).head? with
  | some q, some h => decide (h.2 < q.2)
  | _, _ => false

/-- Lines 76-77: on demotion the outgoing queen and her cached fitness
are appended jointly at the end of the pool. -/
def pool1 (st : LoopState) : List (Genome × ℕ) :=
  match st.queen, demotes st with
  | some q, true => sortedPool st ++ [q]
  | _, _ => sortedPool st

/-- Line 78: after a demotion the queen slot is empty. -/
def queen1 (st : LoopState) : Option (Genome × ℕ) :=
  if demotes st then none else st.queen

/-- Lines 82-84: if the queen slot is empty, extract the top entry. -/
def queen2 (st : LoopState) : Option (Genome × ℕ) :=
  match queen1 st with
  | none => (pool1 st).head?
  | some q => some q

/-- Lines 82-84: the population (with aligned fitnesses) left for the
selection phase after the queen extraction. -/
def selPairs (st : LoopState) : List (Genome × ℕ) :=
  match queen1 st with
  | none => (pool1 st).tail
  | some _ => pool1 st

/-- Lines 88-92: one parent per slot, each a tournament winner. -/
def parents (st : LoopState) (r : StepRand) : List Genome :=
  r.contenders.map (fun ids => (tournamentWinner (selPairs st) ids).1)

/-- Lines 96-99: all selected parents strongly mutated and clamped. -/
def mutated_parents (st : LoopState) (r : StepRand) : List Genome :=
  ((parents st r).zip (r.strongPerms.zip r.strongNoises)).map
    (fun x => strongMutateRow x.2.1 x.2.2 x.1)

/-- Lines 103-115: every mutated parent is crossed with the queen,
producing the raw next pool. -/
def childrenStage (st : LoopState) (r : StepRand) : List Genome :=
  match queen2 st with
  | none => []
  | some q =>
      ((mutated_parents st r).zip r.crossSwaps).map
        (fun x => crossoverChild q.1 x.1 x.2)

/-- Lines 119-121: the weakly mutated pool.  The script computes this
value and never uses it again. -/
def mutated_pool (st : LoopState) (r : StepRand) : List Genome :=
  ((childrenStage st r).zip (r.weakPerms.zip r.weakNoises)).map
    (fun x => weakMutateRow x.2.1 x.2.2 x.1)

/-- Lines 75-127, the loop body below the break: the next state keeps
the clamped crossover output (line 123 clamps `pool`, which at that
point holds the line-115 crossover result; `mutated_pool` is discarded),
the extracted queen, and the incremented generation counter. -/
def genStep (st : LoopState) (r : StepRand) : LoopState :=
  { pool := (childrenStage st r).map clampRow
    queen := queen2 st
    generation := st.generation + 1 }

/-- One full iteration of the `while True` loop: evaluate and sort
(line 53-56), then break if any fitness is infinite (line 69) — before
any selection, mutation or crossover work — else run the rest of the
body.  `none` models the `break`. -/
def runGen (st : LoopState) (r : StepRand) : Option LoopState :=
  if breakCond st then none else some (genStep st r)

/-- Lines 42-46: the initial state. -/
def initState (pool : List Genome) : LoopState :=
  { pool := pool, queen := none, generation := 1 }

/-- Line 44: `pool = torch.randint(0, 255, (POP_SIZE, gene_length))` —
`torch.randint`'s upper bound is exclusive, so every drawn value lies in
`[0, 255)`. -/
abbrev initValid (pool : List Genome) : Prop :=
  pool.length = POP_SIZE ∧
    ∀ g ∈ pool, g.length = gene_length ∧ ∀ v ∈ g, 0 ≤ v ∧ v < 255

/-- Support of one generation's random draws: line 88 draws, per slot,
`NUM_TOURNAMENT_PARTICIPANTS` distinct indices into the selection pool
(a prefix of an argsort, hence without replacement); lines 96/119 draw
argsort permutations of `0 .. gene_length - 1`; lines 97/120 draw ±1
noise rows; line 109 draws one of the two orders per child; and every
per-row tensor has `POP_SIZE - 1` rows, the size of the selection pool. -/
abbrev validStepRand (st : LoopState) (r : StepRand) : Prop :=
  r.contenders.length = (selPairs st).length ∧
  (∀ ids ∈ r.contenders, ids.length = NUM_TOURNAMENT_PARTICIPANTS ∧
      ids.Nodup ∧ ∀ i ∈ ids, i < (selPairs st).length) ∧
  r.strongPerms.length = (selPairs st).length ∧
  (∀ p ∈ r.strongPerms, p.Perm (List.range gene_length)) ∧
  r.strongNoises.length = (selPairs st).length ∧
  (∀ ns ∈ r.strongNoises, ns.length = gene_length ∧ ∀ n ∈ ns, n = 1 ∨ n = -1) ∧
  r.crossSwaps.length = (selPairs st).length ∧
  r.weakPerms.length = (selPairs st).length ∧
  (∀ p ∈ r.weakPerms, p.Perm (List.range gene_length)) ∧
  r.weakNoises.length = (selPairs st).length ∧
  (∀ ns ∈ r.weakNoises, ns.length = gene_length ∧ ∀ n ∈ ns, n = 1 ∨ n = -1)

/-- A concrete genome at squared distance 4 from the target: the last
character code (`'d'` = 100) raised to 102.  Used as a queen below. -/
def qGen : Genome := target_gene.set 24 102

/-- A concrete genome at squared distance 104 from the target: position
0 (`'A'` = 65) raised to 75 and position 12 (`' '` = 32) raised to 34. -/
def bGen : Genome := (target_gene.set 0 75).set 12 34

/-- An argsort permutation of `0 .. 24` whose ranks `≤ 6` sit exactly at
positions 0-5 and 12, so strong mutation selects those positions. -/
def permStar : List ℕ :=
  [0, 1, 2, 3, 4, 5, 7, 8, 9, 10, 11, 12, 6, 13, 14, 15, 16, 17, 18, 19, 20, 21, 22, 23, 24]

/-- A ±1 noise row: −1 at positions 0 and 12, +1 elsewhere. -/
def noiseStar : List ℤ :=
  [-1, 1, 1, 1, 1, 1, 1, 1, 1, 1, 1, 1, -1, 1, 1, 1, 1, 1, 1, 1, 1, 1, 1, 1, 1]

/-- A concrete admissible initial pool: `qGen` and 99 copies of `bGen`
(all values lie in `[0, 255)`). -/
def initPoolC : List Genome := qGen :: List.replicate 99 bGen

/-- Generation-1 state of the concrete run. -/
def st1c : LoopState := initState initPoolC

/-- Concrete draws for generation 1: every tournament draws slots
`0 .. 24`, every parent is strongly mutated with `permStar`/`noiseStar`,
the first child keeps the `(queen, mate)` order and the 98 others swap. -/
def r1c : StepRand :=
  { contenders := List.replicate 99 (List.range 25)
    strongPerms := List.replicate 99 permStar
    strongNoises := List.replicate 99 noiseStar
    crossSwaps := false :: List.replicate 98 true
    weakPerms := List.replicate 99 (List.range 25)
    weakNoises := List.replicate 99 (List.replicate 25 1) }

/-- Generation-2 state of the concrete run. -/
def st2c : LoopState := genStep st1c r1c

/-- The strongly mutated mate of generation 1. -/
def bMut : Genome := strongMutateRow permStar noiseStar bGen

/-- The generation-1 child with the `(queen, mate)` order: squared
distance 1 from the target, so it supplants the queen in generation 2. -/
def cGen : Genome := qGen.take 12 ++ bMut.drop 12

/-- The generation-1 child with the swapped order: squared distance 90. -/
def dGen : Genome := bMut.take 12 ++ qGen.drop 12

/-- Concrete draws for generation 2: identity argsort permutations
(ranks `≤ 6` at positions 0-6), +1 noise, every child swapped. -/
def r2c : StepRand :=
  { contenders := List.replicate 99 (List.range 25)
    strongPerms := List.replicate 99 (List.range 25)
    strongNoises := List.replicate 99 (List.replicate 25 1)
    crossSwaps := List.replicate 99 true
    weakPerms := List.replicate 99 (List.range 25)
    weakNoises := List.replicate 99 (List.replicate 25 1) }

/-- Generation-3 state of the concrete run. -/
def st3c : LoopState := genStep st2c r2c

/-- States reachable by the script: the random initial pool followed by
any number of non-breaking loop iterations.  The invariant lemmas below
hold for arbitrary random draws, so no validity constraint on the oracle
is needed here (this only enlarges the set of reachable states). -/
inductive Reachable : LoopState → Prop
  | init (pool : List Genome) (h : initValid pool) : Reachable (initState pool)
  | step (st : LoopState) (r : StepRand) (st2 : LoopState)
      (h : Reachable st) (h2 : runGen st r = some st2) : Reachable st2

theorem mem_fitPairs (pool : List Genome) (p : Genome × ℕ) (h : p ∈ fitPairs pool) :
    p.1 ∈ pool ∧ p.2 = sqSum p.1 target_gene := by
  unfold fitPairs at h
  rcases List.mem_map.mp h with ⟨g, hg, he⟩
  cases he
  exact ⟨hg, rfl⟩

theorem fitPairs_mem (pool : List Genome) (g : Genome) (h : g ∈ pool) :
    (g, sqSum g target_gene) ∈ fitPairs pool :=
  List.mem_map_of_mem _ h

theorem mem_sortedPool (st : LoopState) (p : Genome × ℕ) :
    p ∈ sortedPool st ↔ p ∈ fitPairs st.pool :=
  (List.perm_insertionSort pairLE (fitPairs st.pool)).mem_iff

theorem mem_of_head?_eq {α : Type} (l : List α) (a : α) (h : l.head? = some a) :
    a ∈ l := by
  cases l with
  | nil => simp at h
  | cons b l =>
    simp only [List.head?_cons, Option.some.injEq] at h
    subst h
    exact List.mem_cons_self _ _

theorem mem_pool1 (st : LoopState) (p : Genome × ℕ) (h : p ∈ pool1 st) :
    p ∈ sortedPool st ∨ st.queen = some p := by
  unfold pool1 at h
  cases hq : st.queen with
  | none =>
    rw [hq] at h
    exact Or.inl h
  | some qq =>
    cases hd : demotes st with
    | false =>
      rw [hq, hd] at h
      exact Or.inl h
    | true =>
      rw [hq, hd] at h
      rcases List.mem_append.mp h with h1 | h1
      · exact Or.inl h1
      · have h2 : p = qq := by simpa using h1
        exact Or.inr (by rw [h2])

theorem queen2_cases (st : LoopState) (q : Genome × ℕ) (h : queen2 st = some q) :
    q ∈ sortedPool st ∨ st.queen = some q := by
  unfold queen2 at h
  cases hq1 : queen1 st with
  | some p =>
    rw [hq1] at h
    injection h with h
    subst h
    unfold queen1 at hq1
    by_cases hd : demotes st = true
    · rw [if_pos hd] at hq1
      exact absurd hq1 (by simp)
    · rw [if_neg hd] at hq1
      exact Or.inr hq1
  | none =>
    rw [hq1] at h
    exact mem_pool1 st q (mem_of_head?_eq _ _ h)

theorem runGen_some (st : LoopState) (r : StepRand) (st2 : LoopState)
    (h : runGen st r = some st2) : breakCond st = false ∧ st2 = genStep st r := by
  unfold runGen at h
  by_cases hb : breakCond st = true
  · rw [hb] at h
    simp at h
  · have hb2 : breakCond st = false := by simpa using hb
    rw [hb2] at h
    simp at h
    exact ⟨hb2, h.symm⟩

theorem runGen_eq_none_iff (st : LoopState) (r : StepRand) :
    runGen st r = none ↔ breakCond st = true := by
  by_cases hb : breakCond st = true <;> simp [runGen, hb]

theorem breakCond_false_forall (st : LoopState) (h : breakCond st = false) :
    ∀ p ∈ sortedPool st, p.2 ≠ 0 := by
  unfold breakCond at h
  rw [List.any_eq_false] at h
  intro p hp
  have := h p hp
  simpa using this

theorem breakCond_true_iff (st : LoopState) :
    breakCond st = true ↔ ∃ g ∈ st.pool, sqSum g target_gene = 0 := by
  unfold breakCond
  rw [List.any_eq_true]
  constructor
  · rintro ⟨p, hp, hbeq⟩
    have h2 := mem_fitPairs _ _ ((mem_sortedPool st p).mp hp)
    refine ⟨p.1, h2.1, ?_⟩
    rw [← h2.2]
    simpa using hbeq
  · rintro ⟨g, hg, h0⟩
    refine ⟨(g, sqSum g target_gene), (mem_sortedPool st _).mpr (fitPairs_mem _ _ hg), ?_⟩
    simpa using h0

/-- Invariant: the queen's cached fitness is the true fitness of her
genome and is never the infinite sentinel. -/
def queenOK (st : LoopState) : Prop :=
  ∀ q : Genome × ℕ, st.queen = some q → q.2 = sqSum q.1 target_gene ∧ q.2 ≠ 0

theorem reachable_queenOK (st : LoopState) (h : Reachable st) : queenOK st := by
  induction h with
  | init pool hv =>
    intro q hq
    simp [initState] at hq
  | step st r st2 hst hrun ih =>
    rcases runGen_some st r st2 hrun with ⟨hbk, hst2⟩
    subst hst2
    intro q hq
    have hq2 : queen2 st = some q := hq
    rcases queen2_cases st q hq2 with hmem | hqueen
    · have h2 := mem_fitPairs _ _ ((mem_sortedPool st q).mp hmem)
      exact ⟨h2.2, breakCond_false_forall st hbk q hmem⟩
    · exact ih q hqueen

theorem clampRow_mem (g : Genome) (v : ℤ) (h : v ∈ clampRow g) :
    0 ≤ v ∧ v ≤ 255 := by
  unfold clampRow at h
  rcases List.mem_map.mp h with ⟨u, _, rfl⟩
  refine ⟨le_min (le_max_right u 0) (by norm_num), min_le_right _ _⟩

/-- Invariant: all pool and queen gene values lie in `[0, 255]`. -/
def stateInRange (st : LoopState) : Prop :=
  (∀ g ∈ st.pool, ∀ v ∈ g, 0 ≤ v ∧ v ≤ 255) ∧
    (∀ q : Genome × ℕ, st.queen = some q → ∀ v ∈ q.1, 0 ≤ v ∧ v ≤ 255)

theorem reachable_range (st : LoopState) (h : Reachable st) : stateInRange st := by
  induction h with
  | init pool hv =>
    constructor
    · intro g hg v hvv
      have := (hv.2 g hg).2 v hvv
      omega
    · intro q hq
      simp [initState] at hq
  | step st r st2 hst hrun ih =>
    rcases runGen_some st r st2 hrun with ⟨hbk, hst2⟩
    subst hst2
    constructor
    · intro g hg v hv
      rcases List.mem_map.mp hg with ⟨c, _, rfl⟩
      exact clampRow_mem c v hv
    · intro q hq
      rcases queen2_cases st q hq with hmem | hqueen
      · have h2 := mem_fitPairs _ _ ((mem_sortedPool st q).mp hmem)
        exact fun v hv => ih.1 q.1 h2.1 v hv
      · exact fun v hv => ih.2 q hqueen v hv

theorem mem_crossoverChild (q m : Genome) (sw : Bool) (v : ℤ)
    (h : v ∈ crossoverChild q m sw) : v ∈ q ∨ v ∈ m := by
  cases sw with
  | false =>
    simp only [crossoverChild] at h
    rcases List.mem_append.mp h with h1 | h1
    · exact Or.inl (List.mem_of_mem_take h1)
    · exact Or.inr (List.mem_of_mem_drop h1)
  | true =>
    simp only [crossoverChild] at h
    rcases List.mem_append.mp h with h1 | h1
    · exact Or.inr (List.mem_of_mem_take h1)
    · exact Or.inl (List.mem_of_mem_drop h1)

/-- A simple admissible initial pool (all rows equal to the target;
every code point of the goal lies in `[0, 255)`). -/
def tpool : List Genome := List.replicate POP_SIZE target_gene

/-- An empty oracle (legal to pass: `runGen`'s break decision ignores it). -/
def r0 : StepRand := ⟨[], [], [], [], [], []⟩

/-- Claim C3: for every genome `g` and target `t` of equal length, the
fitness equals `1 / Σ (g i − t i)^2`; it is the infinite sentinel (the
model of float `inf`, not a raised division error — `fitness` is total)
exactly when `g = t`, and a finite positive value otherwise. -/
theorem fitness_formula (g t : Genome) (h : g.length = t.length) :
    (sqSum g t ≠ 0 → fitness g t = (((1 : ℚ) / (sqSum g t : ℚ) : ℚ) : Fitness))
  ∧ (fitness g t = ⊤ ↔ g = t)
  ∧ (g ≠ t → 0 < fitness g t ∧ fitness g t ≠ ⊤) := by
  have htop : fitness g t = ⊤ ↔ g = t :=
    (fitness_eq_top_iff g t).trans (sqSum_eq_zero_iff g t h)
  refine ⟨?_, htop, ?_⟩
  · intro hz
    unfold fitness
    rw [if_neg hz]
  · intro hne
    have hz : sqSum g t ≠ 0 := fun h0 => hne ((sqSum_eq_zero_iff g t h).mp h0)
    have hs : (0 : ℚ) < (sqSum g t : ℚ) := by exact_mod_cast Nat.pos_of_ne_zero hz
    constructor
    · unfold fitness
      rw [if_neg hz]
      exact_mod_cast one_div_pos.mpr hs
    · exact fun hc => hne (htop.mp hc)

/-- Witness for C3 at a concrete non-matching genome. -/
theorem fitness_formula_witness :
    qGen.length = target_gene.length ∧
      (fitness qGen target_gene = ⊤ ↔ qGen = target_gene) :=
  ⟨by decide, (fitness_formula qGen target_gene (by decide)).2.1⟩

/-- Claim C2: from any reachable state, the loop breaks exactly when
some individual of the just-evaluated working set — every pool member,
plus the queen when present — has infinite fitness.  The decision is a
function of the sorted fitnesses alone (the statement holds for every
oracle `r`, which is consumed only by the post-break phases). -/
theorem loop_break_iff (st : LoopState) (h : Reachable st) (r : StepRand) :
    runGen st r = none ↔
      ∃ g : Genome, (g ∈ st.pool ∨ (∃ f : ℕ, st.queen = some (g, f))) ∧
        fitness g target_gene = ⊤ := by
  rw [runGen_eq_none_iff, breakCond_true_iff]
  constructor
  · rintro ⟨g, hg, h0⟩
    exact ⟨g, Or.inl hg, (fitness_eq_top_iff _ _).mpr h0⟩
  · rintro ⟨g, hor, htop⟩
    have h0 : sqSum g target_gene = 0 := (fitness_eq_top_iff _ _).mp htop
    rcases hor with hg | ⟨f, hqf⟩
    · exact ⟨g, hg, h0⟩
    · have hok := reachable_queenOK st h (g, f) hqf
      exact absurd (hok.1.trans h0) hok.2

/-- Witness for C2 at a concrete reachable initial state. -/
theorem loop_break_iff_witness :
    runGen (initState tpool) r0 = none ↔
      ∃ g : Genome,
        (g ∈ (initState tpool).pool ∨ (∃ f : ℕ, (initState tpool).queen = some (g, f))) ∧
          fitness g target_gene = ⊤ :=
  loop_break_iff (initState tpool) (Reachable.init tpool (by decide)) r0

/-- Claim C4: gene values never leave `[0, 255]`: every reachable pool
row and queen genome is in range; the strong-mutation stage (mutate,
then clamp, lines 96-99) is in range unconditionally; and crossover
introduces no value not already present in one of its two parents. -/
theorem gene_values_in_range :
    (∀ st : LoopState, Reachable st →
      (∀ g ∈ st.pool, ∀ v ∈ g, 0 ≤ v ∧ v ≤ 255) ∧
        (∀ q : Genome × ℕ, st.queen = some q → ∀ v ∈ q.1, 0 ≤ v ∧ v ≤ 255))
  ∧ (∀ (perm : List ℕ) (noise : List ℤ) (g : Genome),
      ∀ v ∈ strongMutateRow perm noise g, 0 ≤ v ∧ v ≤ 255)
  ∧ (∀ (q m : Genome) (sw : Bool), ∀ v ∈ crossoverChild q m sw, v ∈ q ∨ v ∈ m) := by
  refine ⟨fun st h => reachable_range st h, ?_, ?_⟩
  · intro perm noise g v hv
    exact clampRow_mem _ v hv
  · intro q m sw v hv
    exact mem_crossoverChild q m sw v hv

/-- Witness for C4 at a concrete reachable state. -/
theorem gene_values_in_range_witness :
    (∀ g ∈ (initState tpool).pool, ∀ v ∈ g, 0 ≤ v ∧ v ≤ 255) ∧
      (∀ q : Genome × ℕ, (initState tpool).queen = some q →
        ∀ v ∈ q.1, 0 ≤ v ∧ v ≤ 255) :=
  gene_values_in_range.1 (initState tpool) (Reachable.init tpool (by decide))

theorem mem_selPairs (st : LoopState) (p : Genome × ℕ) (h : p ∈ selPairs st) :
    p ∈ pool1 st := by
  unfold selPairs at h
  cases hq : queen1 st with
  | none =>
    rw [hq] at h
    exact List.tail_subset _ h
  | some q =>
    rw [hq] at h
    exact h

theorem demotes_true_destruct (st : LoopState) (hd : demotes st = true) :
    ∃ (q h0 : Genome × ℕ) (tl : List (Genome × ℕ)),
      st.queen = some q ∧ sortedPool st = h0 :: tl ∧ h0.2 < q.2 := by
  unfold demotes at hd
  cases hq : st.queen with
  | none =>
    rw [hq] at hd
    cases hh : (sortedPool st).head? <;> rw [hh] at hd <;> simp at hd
  | some q =>
    cases hh : (sortedPool st).head? with
    | none =>
      rw [hq, hh] at hd
      simp at hd
    | some h0 =>
      rw [hq, hh] at hd
      simp only [decide_eq_true_eq] at hd
      cases hsp : sortedPool st with
      | nil =>
        rw [hsp] at hh
        simp at hh
      | cons a tl =>
        rw [hsp] at hh
        simp only [List.head?_cons, Option.some.injEq] at hh
        exact ⟨q, a, tl, rfl, rfl, by rw [hh]; exact hd⟩

theorem breakCond_st1c : breakCond st1c = false := by with_unfolding_all decide

theorem runGen_st1c : runGen st1c r1c = some st2c := by
  unfold runGen
  rw [breakCond_st1c]
  rfl

theorem reachable_st2c : Reachable st2c :=
  Reachable.step st1c r1c st2c (Reachable.init initPoolC (by decide)) runGen_st1c

/-- Claim C6 (amended): immediately after the per-generation fitness
computation and joint sort, population and fitnesses are index-aligned
and sorted descending by fitness, and the alignment (cached score =
true score of the paired genome) moreover persists into the selection
pool of every reachable state, a readmitted ex-queen included.
Sortedness, however, does not persist past a queen readmission — the
ex-queen is appended at the end regardless of her fitness (see the
counterexample). -/
theorem sorted_after_evaluation :
    (∀ pool : List Genome,
      List.Sorted
        (fun a b : Genome × ℕ => fitness b.1 target_gene ≤ fitness a.1 target_gene)
        (sortPairs (fitPairs pool)))
  ∧ (∀ st : LoopState, Reachable st →
      ∀ p ∈ selPairs st, p.2 = sqSum p.1 target_gene) := by
  constructor
  · intro pool
    have hs : List.Sorted pairLE (sortPairs (fitPairs pool)) :=
      List.sorted_insertionSort pairLE (fitPairs pool)
    have hperm := List.perm_insertionSort pairLE (fitPairs pool)
    refine List.Pairwise.imp_of_mem ?_ hs
    intro a b ha hb hab
    have ha2 := mem_fitPairs pool a (hperm.subset ha)
    have hb2 := mem_fitPairs pool b (hperm.subset hb)
    rw [fitness_le_fitness_iff, ← ha2.2, ← hb2.2]
    exact hab
  · intro st h p hp
    rcases mem_pool1 st p (mem_selPairs st p hp) with hmem | hqueen
    · exact (mem_fitPairs _ _ ((mem_sortedPool st p).mp hmem)).2
    · exact (reachable_queenOK st h p hqueen).1

/-- Witness for the amended C6 at the concrete reachable readmission
state: the readmitted ex-queen's cached score is her true score. -/
theorem sorted_after_evaluation_witness :
    (qGen, (4 : ℕ)).2 = sqSum (qGen, (4 : ℕ)).1 target_gene :=
  sorted_after_evaluation.2 st2c reachable_st2c (qGen, 4)
    (by with_unfolding_all decide)

/-- Counterexample to claim C6 as stated: in the reachable generation-2
state `st2c` the queen is being demoted and readmitted, and the
pool+fitness list entering selection is NOT sorted descending by
fitness — the readmitted ex-queen sits at the end with a fitness
strictly above her predecessor's. -/
theorem selection_pool_not_sorted_cex :
    Reachable st2c ∧ demotes st2c = true ∧ validStepRand st1c r1c ∧
      ¬ List.Sorted
          (fun a b : Genome × ℕ => fitness b.1 target_gene ≤ fitness a.1 target_gene)
          (selPairs st2c) := by
  refine ⟨reachable_st2c, by with_unfolding_all decide,
    by with_unfolding_all decide, ?_⟩
  intro hs
  have hlen : (selPairs st2c).length = 99 := by with_unfolding_all decide
  have h97 : 97 < (selPairs st2c).length := by rw [hlen]; omega
  have h98 : 98 < (selPairs st2c).length := by rw [hlen]; omega
  have e97 : (selPairs st2c).getD 97 ([], 0) = (dGen, 90) := by
    with_unfolding_all decide
  have e98 : (selPairs st2c).getD 98 ([], 0) = (qGen, 4) := by
    with_unfolding_all decide
  rw [List.getD_eq_getElem _ _ h97] at e97
  rw [List.getD_eq_getElem _ _ h98] at e98
  have hp := List.pairwise_iff_getElem.mp hs 97 98 h97 h98 (by omega)
  rw [e97, e98] at hp
  have hle : sqSum dGen target_gene ≤ sqSum qGen target_gene :=
    (fitness_le_fitness_iff _ _ _).mp hp
  have e1 : sqSum dGen target_gene = 90 := by with_unfolding_all decide
  have e2 : sqSum qGen target_gene = 4 := by with_unfolding_all decide
  omega

/-- Claim C5 (amended): when a demotion fires, the outgoing queen (with
her cached fitness) is appended to the population — never discarded —
and after the immediate extraction of the new queen she is a member of
the selection pool of that same generation, counted in its size (which
equals the sorted population's size).  She is not guaranteed to appear
in the following generation's population, which consists of crossover
children only: see the counterexample. -/
theorem queen_reinserted_current_generation (st : LoopState) (q : Genome × ℕ)
    (hq : st.queen = some q) (hd : demotes st = true) :
    q ∈ pool1 st ∧ q ∈ selPairs st ∧
      (selPairs st).length = (sortedPool st).length := by
  rcases demotes_true_destruct st hd with ⟨q2, h0, tl, hq2, hsp, hlt⟩
  have hqq : q2 = q := by
    rw [hq] at hq2
    injection hq2 with h
    exact h.symm
  subst hqq
  have hp1 : pool1 st = sortedPool st ++ [q2] := by
    unfold pool1
    rw [hq, hd]
  have hq1 : queen1 st = none := by
    unfold queen1
    rw [hd]
    rfl
  have hsel : selPairs st = tl ++ [q2] := by
    unfold selPairs
    rw [hq1, hp1, hsp]
    rfl
  refine ⟨?_, ?_, ?_⟩
  · rw [hp1]
    exact List.mem_append_right _ (List.mem_singleton.mpr rfl)
  · rw [hsel]
    exact List.mem_append_right _ (List.mem_singleton.mpr rfl)
  · rw [hsel, hsp]
    simp

/-- Witness for the amended C5 at the concrete demotion state. -/
theorem queen_reinserted_current_generation_witness :
    (qGen, (4 : ℕ)) ∈ pool1 st2c ∧ (qGen, (4 : ℕ)) ∈ selPairs st2c ∧
      (selPairs st2c).length = (sortedPool st2c).length :=
  queen_reinserted_current_generation st2c (qGen, 4)
    (by with_unfolding_all decide) (by with_unfolding_all decide)

theorem breakCond_st2c : breakCond st2c = false := by with_unfolding_all decide

theorem runGen_st2c : runGen st2c r2c = some st3c := by
  unfold runGen
  rw [breakCond_st2c]
  rfl

/-- Counterexample to claim C5 as stated: in the reachable state `st2c`
the queen `qGen` is demoted and readmitted, yet after the full
generation step the next generation's population — built entirely from
crossover children — does not contain her genome. -/
theorem queen_not_in_next_generation_cex :
    Reachable st2c ∧ st2c.queen = some (qGen, 4) ∧ demotes st2c = true ∧
      validStepRand st2c r2c ∧ runGen st2c r2c = some st3c ∧
        qGen ∉ st3c.pool := by
  refine ⟨reachable_st2c, by with_unfolding_all decide,
    by with_unfolding_all decide, by with_unfolding_all decide,
    runGen_st2c, by with_unfolding_all decide⟩

/-- Claim C1 (code bug): the population carried into the next
generation is the clamped raw crossover output; `mutated_pool` — the
weak-mutation result of lines 119-121 — is computed but never assigned
back (line 123 clamps `pool`, which still holds the line-115 crossover
result), for every state and every draw.  At the concrete reachable
state `st1c` with admissible draws `r1c` the two values differ, so the
weak mutation is genuinely discarded. -/
theorem weak_mutation_discarded :
    (∀ (st : LoopState) (r : StepRand),
      (genStep st r).pool = (childrenStage st r).map clampRow ∧
        (genStep st r).queen = queen2 st)
  ∧ validStepRand st1c r1c
  ∧ mutated_pool st1c r1c ≠ (genStep st1c r1c).pool := by
  exact ⟨fun st r => ⟨rfl, rfl⟩, by with_unfolding_all decide,
    by with_unfolding_all decide⟩

theorem rank_lt_strong_iff (r : ℕ) :
    ((r : ℚ) < strong_num_code_mutate) ↔ r < 7 := by
  have he : strong_num_code_mutate = (25 : ℚ) / 4 := by with_unfolding_all decide
  rw [he, lt_div_iff₀ (by norm_num : (0 : ℚ) < 4)]
  constructor
  · intro h
    by_contra hc
    push_neg at hc
    have h7 : (7 : ℚ) ≤ (r : ℚ) := by exact_mod_cast hc
    nlinarith
  · intro h
    have h6 : (r : ℚ) ≤ 6 := by exact_mod_cast Nat.lt_succ_iff.mp h
    nlinarith

theorem mutateRow_getD (mask : List Bool) (noise : List ℤ) (g : Genome) (i : ℕ)
    (hm : mask.length = g.length) (hn : noise.length = g.length)
    (hi : i < g.length) :
    (mutateRow mask noise g).getD i 0 =
      if mask.getD i false = true
      then g.getD i 0 + noise.getD i 0 else g.getD i 0 := by
  have hzl : (mask.zip noise).length = g.length := by
    rw [List.length_zip, hm, hn]
    omega
  have hlen : (mutateRow mask noise g).length = g.length := by
    rw [mutateRow, List.length_zipWith, hzl]
    omega
  rw [List.getD_eq_getElem _ _ (by rw [hlen]; exact hi)]
  rw [List.getD_eq_getElem mask false (by rw [hm]; exact hi)]
  rw [List.getD_eq_getElem noise 0 (by rw [hn]; exact hi)]
  rw [List.getD_eq_getElem g 0 hi]
  unfold mutateRow
  rw [List.getElem_zipWith]
  rw [List.getElem_zip]

theorem clampRow_getD (g : Genome) (i : ℕ) (hi : i < g.length) :
    (clampRow g).getD i 0 = min (max (g.getD i 0) 0) 255 := by
  have hlen : (clampRow g).length = g.length := by simp [clampRow]
  rw [List.getD_eq_getElem _ _ (by rw [hlen]; exact hi)]
  rw [List.getD_eq_getElem g 0 hi]
  unfold clampRow
  rw [List.getElem_map]

theorem maskOfPerm_getD (t : ℚ) (perm : List ℕ) (i : ℕ) (hi : i < perm.length) :
    (maskOfPerm t perm).getD i false = decide ((perm.getD i 0 : ℚ) < t) := by
  have hlen : (maskOfPerm t perm).length = perm.length := by simp [maskOfPerm]
  rw [List.getD_eq_getElem _ _ (by rw [hlen]; exact hi)]
  rw [List.getD_eq_getElem perm 0 hi]
  unfold maskOfPerm
  rw [List.getElem_map]

/-- Claim C7 (amended): strong mutation selects exactly 7 positions per
genome — the argsort ranks strictly below `strong_num_code_mutate` =
6.25, i.e. `⌈6.25⌉ = 7` of them, not `round(6.25) = 6` — with the count
fixed per call though the set of positions is random; each selected
position receives +1 or −1 and is then clamped into `[0, 255]` (so a
selected position already at the relevant boundary keeps its value);
every non-selected position of an in-range genome is unchanged, and the
output length equals the input length. -/
theorem strong_mutation_spec (g : Genome) (perm : List ℕ) (noise : List ℤ)
    (hg : g.length = gene_length) (hperm : perm.Perm (List.range gene_length))
    (hn : noise.length = gene_length)
    (hrange : ∀ v ∈ g, 0 ≤ v ∧ v ≤ 255) :
    (strongMutateRow perm noise g).length = gene_length
  ∧ perm.countP (fun (r : ℕ) => decide ((r : ℚ) < strong_num_code_mutate)) = 7
  ∧ (∀ i, i < gene_length → perm.getD i 0 < 7 →
      (strongMutateRow perm noise g).getD i 0 =
        min (max (g.getD i 0 + noise.getD i 0) 0) 255)
  ∧ (∀ i, i < gene_length → 7 ≤ perm.getD i 0 →
      (strongMutateRow perm noise g).getD i 0 = g.getD i 0) := by
  have hplen : perm.length = gene_length := by
    rw [hperm.length_eq, List.length_range]
  have hmlen : (maskOfPerm strong_num_code_mutate perm).length = g.length := by
    simp [maskOfPerm, hplen, hg]
  have hnlen : noise.length = g.length := by rw [hn, hg]
  have hmutlen : (mutateRow (maskOfPerm strong_num_code_mutate perm) noise g).length
      = g.length := by
    rw [mutateRow, List.length_zipWith, List.length_zip, hmlen, hnlen]
    omega
  refine ⟨?_, ?_, ?_, ?_⟩
  · rw [strongMutateRow, clampRow, List.length_map, hmutlen, hg]
  · rw [hperm.countP_eq]
    with_unfolding_all decide
  · intro i hiL hlt
    have hi : i < g.length := by rw [hg]; exact hiL
    rw [strongMutateRow, clampRow_getD _ i (by rw [hmutlen]; exact hi)]
    rw [mutateRow_getD _ _ _ i hmlen hnlen hi]
    rw [maskOfPerm_getD _ _ i (by rw [hplen]; exact hiL)]
    rw [if_pos (decide_eq_true ((rank_lt_strong_iff _).mpr hlt))]
  · intro i hiL hge
    have hi : i < g.length := by rw [hg]; exact hiL
    rw [strongMutateRow, clampRow_getD _ i (by rw [hmutlen]; exact hi)]
    rw [mutateRow_getD _ _ _ i hmlen hnlen hi]
    rw [maskOfPerm_getD _ _ i (by rw [hplen]; exact hiL)]
    rw [if_neg (by
      simp only [decide_eq_true_eq]
      rw [rank_lt_strong_iff]
      omega)]
    have hmem : g.getD i 0 ∈ g := by
      rw [List.getD_eq_getElem g 0 hi]
      exact List.getElem_mem hi
    have hr := hrange _ hmem
    omega

/-- Witness for the amended C7 at the target genome with the identity
argsort permutation and +1 noise. -/
theorem strong_mutation_spec_witness :
    (strongMutateRow (List.range gene_length) (List.replicate gene_length 1)
        target_gene).length = gene_length
  ∧ (List.range gene_length).countP
      (fun (r : ℕ) => decide ((r : ℚ) < strong_num_code_mutate)) = 7
  ∧ (strongMutateRow (List.range gene_length) (List.replicate gene_length 1)
        target_gene).getD 0 0 =
      min (max (target_gene.getD 0 0 + (List.replicate gene_length (1 : ℤ)).getD 0 0) 0)
        255 :=
  ⟨(strong_mutation_spec target_gene (List.range gene_length)
      (List.replicate gene_length 1) (by decide) (List.Perm.refl _) (by decide)
      (by decide)).1,
   (strong_mutation_spec target_gene (List.range gene_length)
      (List.replicate gene_length 1) (by decide) (List.Perm.refl _) (by decide)
      (by decide)).2.1,
   (strong_mutation_spec target_gene (List.range gene_length)
      (List.replicate gene_length 1) (by decide) (List.Perm.refl _) (by decide)
      (by decide)).2.2.1 0 (by decide) (by decide)⟩

/-- An all-zero genome (a boundary case for the clamp). -/
def zeroGenome : Genome := List.replicate gene_length 0

/-- Counterexample to claim C7 as stated: with the identity argsort
permutation the mask selects the 7 ranks below 6.25 = 0.25 × 25, while
`round(STRONG_MUTATION_PROB × gene_length) = round(6.25) = 6`; on the
target genome with +1 noise exactly 7 positions change, not 6.
Furthermore, on an all-zero genome with −1 noise the clamp undoes every
selected mutation, so 0 positions change. -/
theorem strong_mutation_count_cex :
    ((List.zipWith (fun a b => decide (a ≠ b)) target_gene
        (strongMutateRow (List.range gene_length) (List.replicate gene_length 1)
          target_gene)).count true = 7
      ∧ round strong_num_code_mutate = (6 : ℤ))
  ∧ (List.zipWith (fun a b => decide (a ≠ b)) zeroGenome
      (strongMutateRow (List.range gene_length)
        (List.replicate gene_length (-1)) zeroGenome)).count true = 0 := by
  refine ⟨⟨by with_unfolding_all decide, by with_unfolding_all decide⟩,
    by with_unfolding_all decide⟩

/-- Claim C8: every crossover child is one of exactly two forms, split
at the fixed midpoint `gene_length / 2`: the queen's first half with the
mate's second half, or the mate's first half with the queen's second
half; both forms are realized by the two values of the per-child draw;
and within a generation step the i-th child is obtained from the queen,
the i-th strongly mutated parent and the i-th crossover-order draw. -/
theorem crossover_forms :
    (∀ (q m : Genome) (sw : Bool),
      crossoverChild q m sw = q.take gene_midpoint ++ m.drop gene_midpoint ∨
        crossoverChild q m sw = m.take gene_midpoint ++ q.drop gene_midpoint)
  ∧ (∀ q m : Genome,
      crossoverChild q m false = q.take gene_midpoint ++ m.drop gene_midpoint ∧
        crossoverChild q m true = m.take gene_midpoint ++ q.drop gene_midpoint)
  ∧ gene_midpoint = gene_length / 2
  ∧ (∀ (st : LoopState) (r : StepRand) (qp : Genome × ℕ) (i : ℕ),
      queen2 st = some qp → i < (childrenStage st r).length →
        (childrenStage st r).getD i [] =
          crossoverChild qp.1 ((mutated_parents st r).getD i [])
            (r.crossSwaps.getD i false)) := by
  refine ⟨?_, fun q m => ⟨rfl, rfl⟩, rfl, ?_⟩
  · intro q m sw
    cases sw
    · exact Or.inl rfl
    · exact Or.inr rfl
  · intro st r qp i hq hi
    unfold childrenStage at hi ⊢
    rw [hq] at hi ⊢
    have hzl : i < ((mutated_parents st r).zip r.crossSwaps).length := by
      rw [List.length_map] at hi
      exact hi
    have him : i < (mutated_parents st r).length := by
      rw [List.length_zip] at hzl
      omega
    have his : i < r.crossSwaps.length := by
      rw [List.length_zip] at hzl
      omega
    rw [List.getD_eq_getElem _ _ hi]
    rw [List.getD_eq_getElem _ _ him, List.getD_eq_getElem _ _ his]
    rw [List.getElem_map, List.getElem_zip]

/-- Witness for C8 at the concrete generation-1 state, child 0. -/
theorem crossover_forms_witness :
    (childrenStage st1c r1c).getD 0 [] =
      crossoverChild (qGen, (4 : ℕ)).1 ((mutated_parents st1c r1c).getD 0 [])
        (r1c.crossSwaps.getD 0 false) :=
  crossover_forms.2.2.2 st1c r1c (qGen, 4) 0 (by with_unfolding_all decide)
    (by with_unfolding_all decide)

/-- The configuration surface of §6 of the spec: the five constants the
script fixes at lines 16-21. -/
structure Config where
  goal : String
  popSize : ℕ
  mutationProb : ℚ
  strongMutationProb : ℚ
  numTournamentParticipants : ℕ

/-- The validity constraints the spec states for a configuration. -/
abbrev validConfig (c : Config) : Prop :=
  c.numTournamentParticipants < c.popSize ∧
    1 ≤ c.numTournamentParticipants ∧
    c.goal.length ≠ 0 ∧
    0 ≤ c.mutationProb ∧ c.mutationProb ≤ 1 ∧
    0 ≤ c.strongMutationProb ∧ c.strongMutationProb ≤ 1

/-- Lines 14-48: the script's pre-loop phase defines the constants,
draws the initial pool and enters the loop.  It contains no validation
branch of any kind, so startup never fails, whatever the
configuration. -/
def runStarts (_c : Config) (p : List Genome) : Option LoopState :=
  some (initState p)

/-- The configuration shipped in the source. -/
def shippedConfig : Config :=
  ⟨GOAL, POP_SIZE, MUTATION_PROB, STRONG_MUTATION_PROB, NUM_TOURNAMENT_PARTICIPANTS⟩

/-- An invalid configuration: POP_SIZE ≤ NUM_TOURNAMENT_PARTICIPANTS. -/
def badConfig : Config :=
  ⟨GOAL, 10, MUTATION_PROB, STRONG_MUTATION_PROB, 25⟩

/-- Claim C9 (amended): the script performs no configuration validation
at all — startup unconditionally enters the loop for every
configuration; the shipped constants happen to satisfy every constraint
of the spec, so no invalid run arises from the source as given. -/
theorem config_never_rejected :
    (∀ (c : Config) (p : List Genome), runStarts c p = some (initState p))
  ∧ validConfig shippedConfig :=
  ⟨fun _ _ => rfl, by with_unfolding_all decide⟩

/-- Counterexample to claim C9 as stated: an invalid configuration
(POP_SIZE = 10 ≤ 25 = NUM_TOURNAMENT_PARTICIPANTS) is not rejected —
the run starts anyway. -/
theorem config_validation_cex :
    ¬ validConfig badConfig ∧ runStarts badConfig [] ≠ none := by
  refine ⟨by with_unfolding_all decide, by simp [runStarts]⟩

/-- Claim C10: every gene value of an admissible initial pool lies in
`[0, 254]` — `torch.randint(0, 255, ...)`'s upper bound is exclusive, so
255 never occurs at initialization; the value 255 is reachable through a
later mutation step (254 with +1 noise survives the clamp); and
crossover introduces no value not already present in a parent, so a 255
can first appear in a genome only through a mutation step. -/
theorem init_pool_bounds (pool : List Genome) (h : initValid pool) :
    (∀ g ∈ pool, ∀ v ∈ g, 0 ≤ v ∧ v ≤ 254)
  ∧ (255 : ℤ) ∈ strongMutateRow (List.range gene_length)
      (List.replicate gene_length 1) (List.replicate gene_length 254)
  ∧ (∀ (q m : Genome) (sw : Bool), ∀ v ∈ crossoverChild q m sw, v ∈ q ∨ v ∈ m) := by
  refine ⟨?_, by with_unfolding_all decide,
    fun q m sw v hv => mem_crossoverChild q m sw v hv⟩
  intro g hg v hv
  have := (h.2 g hg).2 v hv
  omega

/-- Witness for C10 at a concrete admissible initial pool, evaluated at
the first value of the first row (the code point of the goal's first
character, 65). -/
theorem init_pool_bounds_witness : (0 : ℤ) ≤ 65 ∧ (65 : ℤ) ≤ 254 :=
  (init_pool_bounds tpool (by decide)).1 target_gene (by decide) 65 (by decide)

end QBMB
